import Mathlib

/-!
Verification of `minirank` (`src/minirank/logistic.py`), an ordinal
(proportional-odds) logistic regression model.

The Python source is shallowly embedded as follows.

* Label canonicalization (lines 61-71 of `logistic.py`): integer labels are
  modelled as `List ℤ`.  `np.argsort`/permutation of `y` is `sortLabels`
  (sorting the label list), `np.unique` is `uniqueLabels` (sorted distinct
  values), and the in-place remap loop `for i, u in enumerate(unique_y):
  y[y == u] = i` is the fold `canonicalize`.
* The solver (`scipy.optimize.minimize`, method TNC) is an external black box;
  claims about the fit output are stated for an arbitrary terminal point
  subject to the box bounds the code passes (`bounds`, line 144).  The
  post-solver recovery `w, z = np.split(out.x, [d]); theta = L_inv.dot(z)`
  (lines 151-153) is `fitRecover` / `fitFinish`; `L_inv.dot z` is the prefix
  sum `cumsum` since `L_inv = np.tril(np.ones(...))`.
* `ordinal_logistic_predict` (lines 156-172) uses only field and order
  operations, so it is embedded over an arbitrary `LinearOrderedField`
  (instantiated at `ℚ` for concrete evaluations); `np.sort`/`np.unique` is
  `sortedUnique`, the band centers `mu` are `muOf`, the 1-dimensional
  pairwise distances are `|s - m|`, and `np.argmin` (first minimal index)
  is `argminIdx`.
* The numeric core `phi`, `f_obj`, `f_grad` (lines 15-22, 78-128) is embedded
  over `ℝ` with exact real arithmetic.  The joint parameter vector
  `x0 = np.concatenate(w, z)` is indexed by `Fin d ⊕ Fin k` (the two blocks of
  `np.split(x0, [d])`).  `np.roll(theta0, 1)` is `roll` (cyclic index shift),
  and the float `-np.inf` sentinel written into `theta1[0]` in `f_grad`
  (line 105) is immaterial because every occurrence is masked by
  `phi_b[y == 0] = 0.`, which the embedding performs directly in `phibVal`.
-/

namespace Minirank

/-! ## Predict stage (lines 156-172), over an arbitrary linear ordered field -/

variable {α : Type} [LinearOrderedField α]

/-- Row dot product `X[i].dot(w)`. -/
def dot (u v : List α) : α := (List.zipWith (fun a b => a * b) u v).sum

/-- Sorted distinct values, the embedding of `np.unique` (line 164; the
`np.sort` on line 163 is absorbed since `np.unique` sorts as well). -/
def sortedUnique (l : List α) : List α := (l.insertionSort (fun a b => a ≤ b)).dedup

/-- Midpoints of consecutive elements: the loop
`mu.append((unique_theta[i] + unique_theta[i+1]) / 2)` (lines 166-167). -/
def midpoints : List α → List α
  | a :: b :: rest => (a + b) / 2 :: midpoints (b :: rest)
  | _ => []

/-- Band centers `mu`: the sentinel `-1` followed by the midpoints of
consecutive distinct sorted thresholds (lines 165-167). -/
def muOf (theta : List α) : List α := -1 :: midpoints (sortedUnique theta)

/-- Index of the first minimal element, the embedding of `np.argmin`
(ties broken by lowest index).  Returns `0` on the empty list, which never
occurs in `ordinal_logistic_predict` because `mu` always contains `-1`. -/
def argminIdx (l : List α) : ℕ :=
  match l with
  | [] => 0
  | x :: xs => ((xs.enumFrom 1).foldl (fun best iv => if iv.2 < best.2 then iv else best) (0, x)).1

/-- Embedding of `ordinal_logistic_predict` (lines 156-172): per row, the index
of the band center nearest to the linear score `X[i].dot(w)`. -/
def ordinal_logistic_predict (w theta : List α) (X : List (List α)) : List ℕ :=
  X.map (fun row => argminIdx ((muOf theta).map (fun m => |dot row w - m|)))

/-! ## Label canonicalization (lines 61-71) -/

/-- Labels reordered ascending, the effect of `idx = np.argsort(y); y = y[idx]`
(lines 62-66) on the label vector. -/
def sortLabels (y : List ℤ) : List ℤ := y.insertionSort (fun a b => a ≤ b)

/-- Embedding of `np.unique(y)` (line 68): sorted distinct label values. -/
def uniqueLabels (y : List ℤ) : List ℤ := (y.insertionSort (fun a b => a ≤ b)).dedup

/-- Embedding of the sequential in-place remap loop
`for i, u in enumerate(unique_y): y[y == u] = i` (lines 69-70). -/
def canonicalize (y : List ℤ) : List ℤ :=
  (uniqueLabels y).enum.foldl
    (fun acc iu => acc.map (fun v => if v = iu.2 then (iu.1 : ℤ) else v)) y

/-- The label vector after the fit stage's reorder-and-remap (lines 62-70). -/
def fitLabels (y : List ℤ) : List ℤ := canonicalize (sortLabels y)

/-- Embedding of `unique_y.size` after remapping (line 71): the number `k` that
sizes `L_inv`, `z`, the bounds list and hence `theta`. -/
def fitK (y : List ℤ) : ℕ := (uniqueLabels (fitLabels y)).length

/-! ## Fit stage tail: parameter recovery (lines 144-153) -/

/-- Prefix sums: the action of the lower-triangular ones matrix
`L_inv = np.tril(np.ones((k, k)))` (line 74) on a vector, i.e.
`theta[i] = (L_inv.dot(z))[i] = z[0] + ... + z[i]`. -/
def cumsum (l : List α) : List α :=
  (List.range l.length).map (fun i => (l.take (i + 1)).sum)

/-- Embedding of `w, z = np.split(out.x, [d]); theta = L_inv.dot(z)`
(lines 151-152) applied to the solver's terminal point. -/
def fitRecover (d : ℕ) (x : List α) : List α × List α := (x.take d, cumsum (x.drop d))

/-- The data `scipy.optimize.minimize` returns to `ordinal_logistic_fit`:
terminal point, convergence flag, message. -/
structure SolverResult (α : Type) where
  x : List α
  success : Bool
  message : String

/-- Embedding of lines 149-153: emit a warning exactly when the solver did not
converge, then recover `(w, theta)` from the terminal point.  The function is
total: both branches return recovered parameters, no exception path exists. -/
def fitFinish (d : ℕ) (res : SolverResult α) : (List α × List α) × List String :=
  (fitRecover d res.x, if res.success then [] else [res.message])

/-! ## Numeric core over `ℝ` (lines 12-128) -/

noncomputable section

/-- Embedding of `alpha = 0.` (line 75), the hardcoded ridge coefficient. -/
def alpha : ℝ := 0

/-- Embedding of `phi` (lines 15-22), the branch-split logistic sigmoid:
`1/(1+exp(-t))` for `t > 0` and `exp(t)/(1+exp(t))` otherwise. -/
def phi (t : ℝ) : ℝ :=
  if 0 < t then 1 / (1 + Real.exp (-t)) else Real.exp t / (1 + Real.exp t)

/-- Embedding of `L_inv = np.tril(np.ones((k, k)))` (line 74). -/
def L_inv (k : ℕ) : Matrix (Fin k) (Fin k) ℝ :=
  Matrix.of fun i j => if j ≤ i then 1 else 0

/-- The index map of `np.roll(·, 1)`: position `i` reads position
`(i - 1) mod k`, written as `(i + (k - 1)) % k` to stay in `ℕ`. -/
def rollIdx (k : ℕ) (i : Fin k) : Fin k :=
  ⟨((i : ℕ) + (k - 1)) % k, Nat.mod_lt _ i.pos⟩

/-- Embedding of `np.roll(theta0, 1)` (lines 84, 104). -/
def roll {k : ℕ} (v : Fin k → ℝ) : Fin k → ℝ := fun i => v (rollIdx k i)

/-- Embedding of `L1_inv = np.roll(L_inv, 1, axis=0)` (line 119). -/
def L1_inv (k : ℕ) : Matrix (Fin k) (Fin k) ℝ :=
  Matrix.of fun i j => L_inv k (rollIdx k i) j

variable {n d k : ℕ}

/-- The `w` block of the joint parameter vector: `np.split(x0, [d])[0]`. -/
def wOf (x0 : Fin d ⊕ Fin k → ℝ) : Fin d → ℝ := fun j => x0 (Sum.inl j)

/-- The `z` block of the joint parameter vector: `np.split(x0, [d])[1]`. -/
def zOf (x0 : Fin d ⊕ Fin k → ℝ) : Fin k → ℝ := fun j => x0 (Sum.inr j)

/-- Embedding of `Xw = X.dot(w)` (lines 86, 106). -/
def lineScore (X : Fin n → Fin d → ℝ) (x0 : Fin d ⊕ Fin k → ℝ) : Fin n → ℝ :=
  fun i => ∑ j, X i j * wOf x0 j

/-- Embedding of `a = theta0[y] - Xw` with `theta0 = L_inv.dot(z)`
(lines 83, 87, 103, 107). -/
def aVal (X : Fin n → Fin d → ℝ) (y : Fin n → Fin k) (x0 : Fin d ⊕ Fin k → ℝ)
    (i : Fin n) : ℝ :=
  (L_inv k).mulVec (zOf x0) (y i) - lineScore X x0 i

/-- Embedding of `b = theta1[y] - Xw` with `theta1 = np.roll(theta0, 1)`
(lines 84, 88, 104, 108).  The `-np.inf` written into `theta1[0]` in `f_grad`
only ever reaches entries that `phi_b[y == 0] = 0.` overwrites (both in
`f_obj` and `f_grad`), so `b` is embedded with the plain cyclic shift and the
mask is applied in `phibVal`. -/
def bVal (X : Fin n → Fin d → ℝ) (y : Fin n → Fin k) (x0 : Fin d ⊕ Fin k → ℝ)
    (i : Fin n) : ℝ :=
  roll ((L_inv k).mulVec (zOf x0)) (y i) - lineScore X x0 i

/-- Embedding of `phi_b` after the mask `phi_b[y == 0] = 0.`
(lines 90-91, 112-113). -/
def phibVal (X : Fin n → Fin d → ℝ) (y : Fin n → Fin k) (x0 : Fin d ⊕ Fin k → ℝ)
    (i : Fin n) : ℝ :=
  if (y i : ℕ) = 0 then 0 else phi (bVal X y x0 i)

/-- Indices of `z[1:]`, the entries carrying the barrier term and the box
bound. -/
def barrierSet (k : ℕ) : Finset (Fin k) :=
  Finset.univ.filter (fun j => 0 < (j : ℕ))

/-- Embedding of `f_obj` (lines 78-95): negative log-likelihood plus ridge
term plus barrier term `-np.log(np.fmax(z[1:], 1e-6)).sum()`. -/
def f_obj (X : Fin n → Fin d → ℝ) (y : Fin n → Fin k)
    (x0 : Fin d ⊕ Fin k → ℝ) : ℝ :=
  (∑ i, -Real.log (phi (aVal X y x0 i) - phibVal X y x0 i))
    + 0.5 * alpha * (∑ j, wOf x0 j * wOf x0 j)
    - ∑ j ∈ barrierSet k, Real.log (max (zOf x0 j) 1e-6)

/-- The factor `phi_a * (1 - phi_a)` appearing in `f_grad` (lines 114-120). -/
def dA (X : Fin n → Fin d → ℝ) (y : Fin n → Fin k) (x0 : Fin d ⊕ Fin k → ℝ)
    (i : Fin n) : ℝ :=
  phi (aVal X y x0 i) * (1 - phi (aVal X y x0 i))

/-- The factor `phi_b * (1 - phi_b)` (masked) appearing in `f_grad`
(lines 114-125). -/
def dB (X : Fin n → Fin d → ℝ) (y : Fin n → Fin k) (x0 : Fin d ⊕ Fin k → ℝ)
    (i : Fin n) : ℝ :=
  phibVal X y x0 i * (1 - phibVal X y x0 i)

/-- The denominator `phi_a - phi_b` (masked) appearing in `f_grad`. -/
def dden (X : Fin n → Fin d → ℝ) (y : Fin n → Fin k) (x0 : Fin d ⊕ Fin k → ℝ)
    (i : Fin n) : ℝ :=
  phi (aVal X y x0 i) - phibVal X y x0 i

/-- Embedding of `f_grad` (lines 98-128).  The `w` block is
`X.T.dot((phi_a*(1-phi_a) - phi_b*(1-phi_b))/(phi_a - phi_b)) + alpha*w`;
the `z` block is `-L_inv[y].T.dot(phi_a*(1-phi_a)/(phi_a-phi_b))` plus the
`y > 0` scatter through `L1_inv` minus the barrier gradient on `z[1:]`. -/
def f_grad (X : Fin n → Fin d → ℝ) (y : Fin n → Fin k)
    (x0 : Fin d ⊕ Fin k → ℝ) : Fin d ⊕ Fin k → ℝ := fun p =>
  match p with
  | Sum.inl j =>
      (∑ i, X i j * ((dA X y x0 i - dB X y x0 i) / dden X y x0 i))
        + alpha * wOf x0 j
  | Sum.inr j =>
      -(∑ i, L_inv k (y i) j * (dA X y x0 i / dden X y x0 i))
        + (∑ i ∈ Finset.univ.filter (fun i => 0 < (y i : ℕ)),
            L1_inv k (y i) j * (dB X y x0 i / dden X y x0 i))
        - (if 0 < (j : ℕ) then 1 / max (zOf x0 j) 1e-6 else 0)

/-- Threshold vector written as the claim states it: `theta[c]` is the prefix
sum `z[0] + ... + z[c]`, stated independently of the matrix `L_inv`. -/
def thetaSpec {k : ℕ} (z : Fin k → ℝ) : Fin k → ℝ :=
  fun c => ∑ j ∈ Finset.univ.filter (fun j : Fin k => (j : ℕ) ≤ (c : ℕ)), z j

/-- Thresholds cyclically shifted by one, as the claim states it:
`theta_prev[c] = theta[(c - 1) mod k]`. -/
def thetaPrevSpec {k : ℕ} (z : Fin k → ℝ) : Fin k → ℝ :=
  fun c => thetaSpec z ⟨((c : ℕ) + k - 1) % k, Nat.mod_lt _ c.pos⟩

/-- The objective exactly as claim C4 words it: per-sample negative log of
`sigma(theta[y_i] - X_i.w) - sigma(theta_prev[y_i] - X_i.w)` with the
`sigma(b)` term replaced by `0` for the lowest class, plus the ridge term
`0.5 * alpha * norm(w)^2`, plus the barrier `-sum log(max(z[1:], 1e-6))`. -/
def f_obj_spec (X : Fin n → Fin d → ℝ) (y : Fin n → Fin k)
    (x0 : Fin d ⊕ Fin k → ℝ) : ℝ :=
  (∑ i, -Real.log (phi (thetaSpec (zOf x0) (y i) - lineScore X x0 i)
      - if (y i : ℕ) = 0 then 0
        else phi (thetaPrevSpec (zOf x0) (y i) - lineScore X x0 i)))
    + 0.5 * alpha * (∑ j, wOf x0 j ^ 2)
    - ∑ j ∈ barrierSet k, Real.log (max (zOf x0 j) 1e-6)

/-- Derived quantity (no direct source counterpart): the coefficient of the
parameter coordinate `q` in the affine function
`x0 ↦ (L_inv.dot z)[c] - X[i].dot(w)`, of which `aVal` (at `c = y i`) and
`bVal` (at `c = rollIdx k (y i)`) are instances.  Used to state their exact
differentials. -/
def affCoef (X : Fin n → Fin d → ℝ) (i : Fin n) (c : Fin k) : Fin d ⊕ Fin k → ℝ :=
  Sum.elim (fun j => -(X i j)) (fun j => if j ≤ c then 1 else 0)

end

/-! ## Helper lemmas about the predict stage -/

theorem foldl_argmin_fst_lt (N : ℕ) (ps : List (ℕ × α)) :
    ∀ b : ℕ × α, b.1 < N → (∀ iv ∈ ps, iv.1 < N) →
      (ps.foldl (fun best iv => if iv.2 < best.2 then iv else best) b).1 < N := by
  induction ps with
  | nil => intro b hb _; simpa using hb
  | cons iv ps ih =>
      intro b hb hps
      simp only [List.foldl_cons]
      refine ih _ ?_ (fun x hx => hps x (List.mem_cons_of_mem _ hx))
      by_cases h : iv.2 < b.2
      · simpa [h] using hps iv (List.mem_cons_self _ _)
      · simpa [h] using hb

theorem foldl_argmin_keep (ps : List (ℕ × α)) :
    ∀ b : ℕ × α, (∀ iv ∈ ps, ¬ iv.2 < b.2) →
      ps.foldl (fun best iv => if iv.2 < best.2 then iv else best) b = b := by
  induction ps with
  | nil => intro b _; rfl
  | cons iv ps ih =>
      intro b h
      have h1 : ¬ iv.2 < b.2 := h iv (List.mem_cons_self _ _)
      simp only [List.foldl_cons, if_neg h1]
      exact ih b (fun x hx => h x (List.mem_cons_of_mem _ hx))

theorem argminIdx_lt_length (l : List α) (h : l ≠ []) : argminIdx l < l.length := by
  match l with
  | x :: xs =>
      simp only [argminIdx, List.length_cons]
      refine foldl_argmin_fst_lt (xs.length + 1) _ _ (Nat.succ_pos _) ?_
      intro iv hiv
      obtain ⟨i, v⟩ := iv
      obtain ⟨h1, h2, -⟩ := List.mem_enumFrom hiv
      simpa using by omega

theorem argminIdx_cons_eq_zero (x : α) (xs : List α) (h : ∀ v ∈ xs, x < v) :
    argminIdx (x :: xs) = 0 := by
  simp only [argminIdx]
  rw [foldl_argmin_keep]
  intro iv hiv
  obtain ⟨i, v⟩ := iv
  obtain ⟨h1, h2, h3⟩ := List.mem_enumFrom hiv
  have hv : v ∈ xs := by
    rw [h3]; exact List.getElem_mem _
  exact not_lt.mpr (le_of_lt (h v hv))

theorem mem_sortedUnique {l : List α} {x : α} : x ∈ sortedUnique l ↔ x ∈ l := by
  unfold sortedUnique
  rw [List.mem_dedup]
  exact (List.perm_insertionSort _ l).mem_iff

theorem sortedUnique_ne_nil {l : List α} (h : l ≠ []) : sortedUnique l ≠ [] := by
  obtain ⟨x, hx⟩ := List.exists_mem_of_ne_nil l h
  intro hn
  have hx2 : x ∈ sortedUnique l := mem_sortedUnique.mpr hx
  rw [hn] at hx2
  simp at hx2

theorem sortedUnique_length_le (l : List α) : (sortedUnique l).length ≤ l.length := by
  unfold sortedUnique
  calc (l.insertionSort (fun a b => a ≤ b)).dedup.length
      ≤ (l.insertionSort (fun a b => a ≤ b)).length := (List.dedup_sublist _).length_le
    _ = l.length := (List.perm_insertionSort _ l).length_eq

theorem midpoints_length (l : List α) : (midpoints l).length = l.length - 1 := by
  induction l with
  | nil => rfl
  | cons a t ih =>
      cases t with
      | nil => rfl
      | cons b r =>
          simp only [midpoints, List.length_cons] at ih ⊢
          omega

theorem mem_midpoints {l : List α} {m : α} (h : m ∈ midpoints l) :
    ∃ a ∈ l, ∃ b ∈ l, m = (a + b) / 2 := by
  induction l with
  | nil => simp [midpoints] at h
  | cons a t ih =>
      cases t with
      | nil => simp [midpoints] at h
      | cons b r =>
          rcases List.mem_cons.mp h with h1 | h2
          · exact ⟨a, by simp, b, by simp, h1⟩
          · obtain ⟨a2, ha2, b2, hb2, he⟩ := ih h2
            exact ⟨a2, List.mem_cons_of_mem _ ha2, b2, List.mem_cons_of_mem _ hb2, he⟩

theorem muOf_length {theta : List α} (h : theta ≠ []) :
    (muOf theta).length = (sortedUnique theta).length := by
  have h1 : (sortedUnique theta).length ≠ 0 := by
    simpa [List.length_eq_zero] using sortedUnique_ne_nil h
  simp only [muOf, List.length_cons, midpoints_length]
  omega

theorem nodup_singleton_of_all_eq {β : Type} {l : List β} {c : β} (hn : l.Nodup)
    (hne : l ≠ []) (h : ∀ x ∈ l, x = c) : l = [c] := by
  match l with
  | [] => exact absurd rfl hne
  | [x] => rw [h x (by simp)]
  | x :: x' :: t =>
      exfalso
      have h1 : x = c := h x (by simp)
      have h2 : x' = c := h x' (by simp)
      rw [List.nodup_cons] at hn
      apply hn.1
      rw [h1, h2]
      exact List.mem_cons_self _ _

theorem sortedUnique_all_eq {l : List α} {c : α} (hne : l ≠ []) (h : ∀ x ∈ l, x = c) :
    sortedUnique l = [c] :=
  nodup_singleton_of_all_eq (List.nodup_dedup _) (sortedUnique_ne_nil hne)
    (fun x hx => h x (mem_sortedUnique.mp hx))

theorem cumsum_get (l : List α) (i : ℕ) (h : i < (cumsum l).length) :
    (cumsum l).get ⟨i, h⟩ = (l.take (i + 1)).sum := by
  simp [cumsum]

/-! ## Claim theorems: fit stage -/

/-- C1: whenever the solver's terminal point `x` has the shape the code
builds (`d + k` entries, `k = fitK y`) and satisfies the box constraints the
code passes to the solver (entries `d+1, ..., d+k-1`, i.e. `z[1:]`, bounded
below by `1/k`; `w` and `z[0]` unconstrained), the recovered threshold vector
`theta = L_inv.dot(z)` is non-decreasing: `theta[i] <= theta[i+1]` for every
adjacent pair. -/
theorem fit_theta_monotone (y : List ℤ) (d : ℕ) (x : List α)
    (hlen : x.length = d + fitK y)
    (hbox : ∀ i (hi : i < x.length), d + 1 ≤ i → 1 / (fitK y : α) ≤ x.get ⟨i, hi⟩) :
    List.Chain' (fun a b => a ≤ b) (fitRecover d x).2 := by
  simp only [fitRecover]
  rw [List.chain'_iff_get]
  intro i hi
  rw [cumsum_get, cumsum_get]
  have hlen2 : (cumsum (x.drop d)).length = (x.drop d).length := by simp [cumsum]
  have hdrop : (x.drop d).length = x.length - d := List.length_drop d x
  have hik : i + 1 < (x.drop d).length := by omega
  rw [List.sum_take_succ _ _ hik]
  have hidx : d + (i + 1) < x.length := by omega
  have hget : (x.drop d)[i + 1] = x.get ⟨d + (i + 1), hidx⟩ := by
    rw [List.get_drop x hidx]
    simp
  have hb := hbox (d + (i + 1)) hidx (by omega)
  have hnn : (0 : α) ≤ 1 / (fitK y : α) := by positivity
  rw [hget]
  have : (0 : α) ≤ x.get ⟨d + (i + 1), hidx⟩ := le_trans hnn hb
  linarith

/-- Witness for C1 at a concrete input over `ℚ`: `y = [0, 1]` (so `k = 2`),
`d = 1`, terminal point `x = [5, -1, 1]` with `z[1] = 1 >= 1/2`. -/
theorem fit_theta_monotone_witness :
    (([5, -1, 1] : List ℚ).length = 1 + fitK [0, 1]
      ∧ ∀ i (hi : i < ([5, -1, 1] : List ℚ).length), 1 + 1 ≤ i →
          1 / (fitK [0, 1] : ℚ) ≤ ([5, -1, 1] : List ℚ).get ⟨i, hi⟩)
    ∧ List.Chain' (fun a b => a ≤ b) (fitRecover 1 ([5, -1, 1] : List ℚ)).2 := by
  have hk : fitK [0, 1] = 2 := by decide
  have hbox : ∀ i (hi : i < ([5, -1, 1] : List ℚ).length), 1 + 1 ≤ i →
      1 / (fitK [0, 1] : ℚ) ≤ ([5, -1, 1] : List ℚ).get ⟨i, hi⟩ := by
    intro i hi h2
    simp only [List.length_cons, List.length_nil] at hi
    have h3 : i = 2 := by omega
    subst h3
    rw [hk]
    norm_num
  exact ⟨⟨by simp [hk], hbox⟩, fit_theta_monotone [0, 1] 1 [5, -1, 1] (by simp [hk]) hbox⟩

/-- C2 (code bug evidence): on caller labels `y = [0, -1]` (two distinct
integer values), the canonicalization loop maps both raw labels `-1` and `0`
to canonical value `1`: the step `y[y == 0] = 1` recaptures the samples that
the step `y[y == -1] = 0` produced.  The result `[1, 1]` is not an
order-preserving bijection onto `{0, 1}` (distinct raw labels collapse, and
the canonical codes do not start at zero, contradicting the code's own
comment `make them continuous and start at zero`). -/
theorem canonicalize_collapses_negative_labels :
    fitLabels [0, -1] = [1, 1] ∧ sortLabels [0, -1] = [-1, 0] := by decide

/-- C7 (code bug evidence): on caller labels `y = [0, -1]`, the caller's `y`
has 2 distinct values but after canonicalization the code's `unique_y.size`
(which sizes `L_inv`, `z`, and therefore `theta`) is 1, so the returned
`theta` could not have length 2; in fact the Python code raises `IndexError`
inside `f_obj` (`theta0[y]` with `y` containing `1` and `theta0` of size 1)
before returning at all. -/
theorem fitK_on_negative_labels :
    fitK [0, -1] = 1 ∧ (uniqueLabels [0, -1]).length = 2 := by decide

/-- C8: when the solver reports non-convergence (`success = false`), the fit
tail (lines 149-153) emits the solver message as a warning and still returns
exactly the parameters `(w, theta = L_inv.dot(z))` recovered from the
terminal point, identical to the convergent case; the embedding `fitFinish`
is a total function, mirroring the absence of any raise path. -/
theorem fit_nonconvergence_warns_and_returns (dd : ℕ) (xv : List α) (msg : String) :
    (fitFinish dd ⟨xv, false, msg⟩).1 = (fitFinish dd ⟨xv, true, msg⟩).1
    ∧ (fitFinish dd ⟨xv, false, msg⟩).2 = [msg]
    ∧ (fitFinish dd ⟨xv, true, msg⟩).2 = [] :=
  ⟨rfl, rfl, rfl⟩

/-! ## Claim theorems: predict stage -/

/-- C5, amended with `theta` nonempty: the prediction vector has one entry
per row of `X` and every entry lies in `[0, k-1]` for `k = theta.length`. -/
theorem predict_output_in_range (w theta : List α) (X : List (List α))
    (h : theta ≠ []) :
    (ordinal_logistic_predict w theta X).length = X.length
    ∧ ∀ p ∈ ordinal_logistic_predict w theta X, p < theta.length := by
  constructor
  · simp [ordinal_logistic_predict]
  · intro p hp
    simp only [ordinal_logistic_predict, List.mem_map] at hp
    obtain ⟨row, -, rfl⟩ := hp
    have h1 : ((muOf theta).map (fun m => |dot row w - m|)) ≠ [] := by simp [muOf]
    have h2 := argminIdx_lt_length _ h1
    rw [List.length_map] at h2
    have h3 := muOf_length h
    have h4 := sortedUnique_length_le theta
    omega

/-- Witness for amended C5 at a concrete input over `ℚ`. -/
theorem predict_output_in_range_witness :
    (([1, 2] : List ℚ) ≠ [])
    ∧ ((ordinal_logistic_predict ([1] : List ℚ) [1, 2] [[0], [3]]).length
          = ([[0], [3]] : List (List ℚ)).length
      ∧ ∀ p ∈ ordinal_logistic_predict ([1] : List ℚ) [1, 2] [[0], [3]],
          p < ([1, 2] : List ℚ).length) :=
  ⟨by simp, predict_output_in_range [1] [1, 2] [[0], [3]] (by simp)⟩

/-- C5 counterexample: for the length-0 threshold vector, predict still
returns class `0` (the `mu` list holds the sentinel `-1` alone), which is not
in the empty range `[0, k-1] = [0, -1]`.  The claim as stated, quantifying
over every `theta` of length `k`, therefore fails at `k = 0`. -/
theorem predict_range_fails_on_empty_theta :
    ¬ ∀ p ∈ ordinal_logistic_predict ([1] : List ℚ) [] [[5]],
        (p : ℤ) ≤ (([] : List ℚ).length : ℤ) - 1 := by
  intro hcl
  have hev : ordinal_logistic_predict ([1] : List ℚ) [] [[5]] = [0] := by
    norm_num [ordinal_logistic_predict, muOf, sortedUnique, midpoints, argminIdx, dot,
      List.insertionSort, List.orderedInsert, List.dedup, List.pwFilter,
      List.enumFrom, abs]
  have h0 := hcl 0 (by rw [hev]; exact List.mem_singleton_self 0)
  norm_num at h0

/-- C10, amended with `theta` nonempty: every prediction is below the number
`u` of distinct thresholds (`u = (sortedUnique theta).length`), and when all
thresholds are equal every row is predicted as class `0`. -/
theorem predict_range_distinct_thresholds (w theta : List α) (X : List (List α))
    (h : theta ≠ []) :
    (∀ p ∈ ordinal_logistic_predict w theta X, p < (sortedUnique theta).length)
    ∧ ((∀ a ∈ theta, ∀ b ∈ theta, a = b) →
        ∀ p ∈ ordinal_logistic_predict w theta X, p = 0) := by
  constructor
  · intro p hp
    simp only [ordinal_logistic_predict, List.mem_map] at hp
    obtain ⟨row, -, rfl⟩ := hp
    have h1 : ((muOf theta).map (fun m => |dot row w - m|)) ≠ [] := by simp [muOf]
    have h2 := argminIdx_lt_length _ h1
    rw [List.length_map, muOf_length h] at h2
    exact h2
  · intro hall p hp
    obtain ⟨c, hc⟩ := List.exists_mem_of_ne_nil theta h
    have hsu : sortedUnique theta = [c] :=
      sortedUnique_all_eq h (fun x hx => hall x hx c hc)
    simp only [ordinal_logistic_predict, List.mem_map] at hp
    obtain ⟨row, -, rfl⟩ := hp
    simp [muOf, hsu, midpoints, argminIdx, List.enumFrom]

/-- Witness for amended C10 at a concrete input over `ℚ` with tied
thresholds. -/
theorem predict_range_distinct_thresholds_witness :
    (([3, 3] : List ℚ) ≠ [])
    ∧ ((∀ p ∈ ordinal_logistic_predict ([2] : List ℚ) [3, 3] [[1], [9]],
          p < (sortedUnique ([3, 3] : List ℚ)).length)
      ∧ ((∀ a ∈ ([3, 3] : List ℚ), ∀ b ∈ ([3, 3] : List ℚ), a = b) →
          ∀ p ∈ ordinal_logistic_predict ([2] : List ℚ) [3, 3] [[1], [9]], p = 0)) :=
  ⟨by simp, predict_range_distinct_thresholds [2] [3, 3] [[1], [9]] (by simp)⟩

/-- C10 counterexample: with the empty threshold vector (`u = 0` distinct
values) predict still returns class `0`, outside `[0, u-1] = [0, -1]`. -/
theorem predict_distinct_range_fails_on_empty_theta :
    ¬ ∀ p ∈ ordinal_logistic_predict ([2] : List ℚ) [] [[3]],
        (p : ℤ) ≤ ((sortedUnique ([] : List ℚ)).length : ℤ) - 1 := by
  intro hcl
  have hev : ordinal_logistic_predict ([2] : List ℚ) [] [[3]] = [0] := by
    norm_num [ordinal_logistic_predict, muOf, sortedUnique, midpoints, argminIdx, dot,
      List.insertionSort, List.orderedInsert, List.dedup, List.pwFilter,
      List.enumFrom, abs]
  have h0 := hcl 0 (by rw [hev]; exact List.mem_singleton_self 0)
  rw [show sortedUnique ([] : List ℚ) = [] from rfl] at h0
  norm_num at h0

/-- C6, amended: a row whose linear score is at most `-1` is assigned class
`0` provided every threshold exceeds `-1` (such a score is strictly below all
thresholds, and the sentinel center `mu[0] = -1` is then strictly nearest).
The conclusion also records that the score is strictly below every
threshold. -/
theorem predict_low_score_class_zero (w theta : List α) (X : List (List α))
    (hth : ∀ t ∈ theta, (-1 : α) < t) (i : ℕ) (hi : i < X.length)
    (hs : dot (X.getD i []) w ≤ -1) :
    (∀ t ∈ theta, dot (X.getD i []) w < t)
    ∧ (ordinal_logistic_predict w theta X).getD i 1 = 0 := by
  constructor
  · intro t ht
    exact lt_of_le_of_lt hs (hth t ht)
  · have hlen : i < (ordinal_logistic_predict w theta X).length := by
      simpa [ordinal_logistic_predict] using hi
    rw [List.getD_eq_get _ _ hlen]
    have hrow : X.getD i [] = X.get ⟨i, hi⟩ := List.getD_eq_get _ _ hi
    simp only [ordinal_logistic_predict] at hlen ⊢
    rw [List.get_map]
    rw [hrow] at hs
    simp only [muOf, List.map_cons]
    apply argminIdx_cons_eq_zero
    intro v hv
    simp only [List.mem_map] at hv
    obtain ⟨m, hm, rfl⟩ := hv
    obtain ⟨a2, ha2, b2, hb2, rfl⟩ := mem_midpoints hm
    have ha3 : (-1 : α) < a2 := hth _ (mem_sortedUnique.mp ha2)
    have hb3 : (-1 : α) < b2 := hth _ (mem_sortedUnique.mp hb2)
    have e1 : |dot (X.get ⟨i, hi⟩) w - (-1)| = -1 - dot (X.get ⟨i, hi⟩) w := by
      rw [abs_of_nonpos (by linarith)]
      ring
    have e2 : |dot (X.get ⟨i, hi⟩) w - (a2 + b2) / 2|
        = (a2 + b2) / 2 - dot (X.get ⟨i, hi⟩) w := by
      rw [abs_of_nonpos (by linarith)]
      ring
    rw [e1, e2]
    linarith

/-- Witness for amended C6 at a concrete input over `ℚ`. -/
theorem predict_low_score_class_zero_witness :
    (∀ t ∈ ([1, 2] : List ℚ), (-1 : ℚ) < t)
    ∧ (0 : ℕ) < ([[-3]] : List (List ℚ)).length
    ∧ dot (([[-3]] : List (List ℚ)).getD 0 []) [1] ≤ -1
    ∧ ((∀ t ∈ ([1, 2] : List ℚ), dot (([[-3]] : List (List ℚ)).getD 0 []) ([1] : List ℚ) < t)
      ∧ (ordinal_logistic_predict ([1] : List ℚ) [1, 2] [[-3]]).getD 0 1 = 0) := by
  refine ⟨?_, by simp, ?_, ?_⟩
  · intro t ht
    rcases List.mem_cons.mp ht with rfl | ht2
    · norm_num
    · rcases List.mem_singleton.mp ht2 with rfl
      norm_num
  · norm_num [dot]
  · exact predict_low_score_class_zero [1] [1, 2] [[-3]]
      (by
        intro t ht
        rcases List.mem_cons.mp ht with rfl | ht2
        · norm_num
        · rcases List.mem_singleton.mp ht2 with rfl
          norm_num)
      0 (by simp) (by norm_num [dot])

/-- C6 counterexample: with `theta = [-100, -98]`, `w = [1]` and the single
row `[-200]`, the linear score `-200` is strictly below every threshold, yet
predict assigns class `1`, not `0`: the band centers are `[-1, -99]` and
`-99` is nearer to `-200` than the sentinel `-1` is. -/
theorem predict_low_score_counterexample :
    (∀ t ∈ ([-100, -98] : List ℚ), dot ([-200] : List ℚ) [1] < t)
    ∧ ordinal_logistic_predict ([1] : List ℚ) [-100, -98] [[-200]] = [1] := by
  constructor
  · intro t ht
    rcases List.mem_cons.mp ht with rfl | ht2
    · norm_num [dot]
    · rcases List.mem_singleton.mp ht2 with rfl
      norm_num [dot]
  · norm_num [ordinal_logistic_predict, muOf, sortedUnique, midpoints, argminIdx, dot,
      List.insertionSort, List.orderedInsert, List.dedup, List.pwFilter,
      List.enumFrom, abs]

/-! ## Helper lemmas about the sigmoid `phi` -/

theorem phi_eq_exp (t : ℝ) : phi t = Real.exp t / (1 + Real.exp t) := by
  unfold phi
  by_cases h : 0 < t
  · rw [if_pos h, Real.exp_neg]
    have h1 : Real.exp t ≠ 0 := (Real.exp_pos t).ne'
    rw [div_eq_div_iff (by positivity) (by positivity)]
    field_simp
    ring
  · rw [if_neg h]

theorem phi_pos (t : ℝ) : 0 < phi t := by
  rw [phi_eq_exp]
  positivity

theorem phi_lt_one (t : ℝ) : phi t < 1 := by
  rw [phi_eq_exp, div_lt_one (by positivity)]
  linarith [Real.exp_pos t]

theorem phi_lt_phi {s t : ℝ} (h : s < t) : phi s < phi t := by
  rw [phi_eq_exp, phi_eq_exp, div_lt_div_iff (by positivity) (by positivity)]
  have he := Real.exp_lt_exp.mpr h
  nlinarith [Real.exp_pos s, Real.exp_pos t]

theorem hasDerivAt_phi (t : ℝ) : HasDerivAt phi (phi t * (1 - phi t)) t := by
  have hfun : phi = fun s => Real.exp s / (1 + Real.exp s) := funext phi_eq_exp
  have hne : (1 + Real.exp t) ≠ 0 := by positivity
  have h := (Real.hasDerivAt_exp t).div
    ((hasDerivAt_const t (1 : ℝ)).add (Real.hasDerivAt_exp t)) hne
  rw [hfun]
  convert h using 1
  field_simp
  ring

/-! ## Claim theorem: the sigmoid helper -/

/-- C9: over exact real arithmetic the two branches of `phi` compute the same
value `1/(1+exp(-t))`; consequently `phi 0 = 1/2`, `phi t + phi (-t) = 1` for
every `t`, and `phi t` lies strictly in `(0, 1)`. -/
theorem phi_sigmoid_identities (t : ℝ) :
    phi t = 1 / (1 + Real.exp (-t))
    ∧ Real.exp t / (1 + Real.exp t) = 1 / (1 + Real.exp (-t))
    ∧ phi 0 = 1 / 2
    ∧ phi t + phi (-t) = 1
    ∧ 0 < phi t ∧ phi t < 1 := by
  have hbr : ∀ s : ℝ, Real.exp s / (1 + Real.exp s) = 1 / (1 + Real.exp (-s)) := by
    intro s
    rw [Real.exp_neg]
    have h1 : Real.exp s ≠ 0 := (Real.exp_pos s).ne'
    rw [div_eq_div_iff (by positivity) (by positivity)]
    field_simp
    ring
  refine ⟨by rw [phi_eq_exp]; exact hbr t, hbr t, ?_, ?_, phi_pos t, phi_lt_one t⟩
  · rw [phi_eq_exp]
    simp [Real.exp_zero]
    norm_num
  · rw [phi_eq_exp, phi_eq_exp, Real.exp_neg]
    have h1 : Real.exp t ≠ 0 := (Real.exp_pos t).ne'
    field_simp
    ring

/-! ## Helper lemmas relating the matrix form to prefix sums -/

theorem mulVec_L_inv {m : ℕ} (z : Fin m → ℝ) (c : Fin m) :
    (L_inv m).mulVec z c = thetaSpec z c := by
  unfold L_inv thetaSpec
  simp only [Matrix.mulVec, Matrix.dotProduct, Matrix.of_apply]
  rw [Finset.sum_filter]
  apply Finset.sum_congr rfl
  intro j _
  by_cases h : (j : ℕ) ≤ (c : ℕ)
  · rw [if_pos h, if_pos (Fin.le_def.mpr h), one_mul]
  · rw [if_neg h, if_neg (fun hc => h (Fin.le_def.mp hc)), zero_mul]

theorem roll_mulVec_L_inv {m : ℕ} (z : Fin m → ℝ) (c : Fin m) :
    roll ((L_inv m).mulVec z) c = thetaPrevSpec z c := by
  unfold roll thetaPrevSpec
  rw [mulVec_L_inv]
  congr 1
  apply Fin.ext
  simp only [rollIdx]
  have hk := c.pos
  have he : (c : ℕ) + (m - 1) = (c : ℕ) + m - 1 := by omega
  rw [he]

/-! ## Helper lemmas for the gradient claim -/

theorem aff_linear (X : Fin n → Fin d → ℝ) (i : Fin n) (c : Fin k)
    (x0 : Fin d ⊕ Fin k → ℝ) :
    (L_inv k).mulVec (zOf x0) c - lineScore X x0 i = ∑ q, affCoef X i c q * x0 q := by
  rw [Fintype.sum_sum_type]
  simp only [affCoef, Sum.elim_inl, Sum.elim_inr]
  unfold lineScore wOf zOf
  simp only [Matrix.mulVec, Matrix.dotProduct, L_inv, Matrix.of_apply]
  have h1 : ∑ j, -X i j * x0 (Sum.inl j) = -∑ j, X i j * x0 (Sum.inl j) := by
    rw [← Finset.sum_neg_distrib]
    apply Finset.sum_congr rfl
    intro j _
    ring
  rw [h1]
  ring

theorem hasDerivAt_coord_sum {ι : Type} [Fintype ι] [DecidableEq ι]
    (c x0 : ι → ℝ) (p : ι) :
    HasDerivAt (fun t => ∑ q, c q * Function.update x0 p t q) (c p) (x0 p) := by
  have h : ∀ t : ℝ, (∑ q, c q * Function.update x0 p t q)
      = c p * t + ∑ q ∈ Finset.univ.erase p, c q * x0 q := by
    intro t
    rw [← Finset.add_sum_erase _ (fun q => c q * Function.update x0 p t q)
      (Finset.mem_univ p)]
    congr 1
    · rw [Function.update_same]
    · apply Finset.sum_congr rfl
      intro q hq
      rw [Function.update_noteq (Finset.ne_of_mem_erase hq)]
  have h2 : HasDerivAt (fun t : ℝ => c p * t + ∑ q ∈ Finset.univ.erase p, c q * x0 q)
      (c p) (x0 p) := by
    simpa using ((hasDerivAt_id (x0 p)).const_mul (c p)).add_const
      (∑ q ∈ Finset.univ.erase p, c q * x0 q)
  exact h2.congr_of_eventuallyEq (Filter.eventually_of_forall h)

theorem hasDerivAt_log_max (c : ℝ) (hc : (1e-6 : ℝ) < c) :
    HasDerivAt (fun t : ℝ => Real.log (max t 1e-6)) c⁻¹ c := by
  have hco : (0 : ℝ) < c := lt_trans (by norm_num) hc
  have hopen : IsOpen {t : ℝ | (1e-6 : ℝ) < t} := isOpen_lt continuous_const continuous_id
  refine (Real.hasDerivAt_log (ne_of_gt hco)).congr_of_eventuallyEq ?_
  filter_upwards [hopen.mem_nhds hc] with t ht
  rw [max_eq_left (le_of_lt ht)]

theorem rollIdx_val {m : ℕ} (c : Fin m) (hc : 0 < (c : ℕ)) :
    ((rollIdx m c) : ℕ) = (c : ℕ) - 1 := by
  simp only [rollIdx]
  have hk := c.pos
  have hlt := c.isLt
  have he : (c : ℕ) + (m - 1) = ((c : ℕ) - 1) + 1 * m := by omega
  rw [he, Nat.add_mul_mod_self_right, Nat.mod_eq_of_lt (by omega)]

theorem aVal_sub_bVal (X : Fin n → Fin d → ℝ) (y : Fin n → Fin k)
    (x0 : Fin d ⊕ Fin k → ℝ) (i : Fin n) (hy : 0 < (y i : ℕ)) :
    aVal X y x0 i - bVal X y x0 i = zOf x0 (y i) := by
  unfold aVal bVal
  rw [show roll ((L_inv k).mulVec (zOf x0)) (y i)
      = (L_inv k).mulVec (zOf x0) (rollIdx k (y i)) from rfl]
  rw [mulVec_L_inv, mulVec_L_inv]
  have hvr := rollIdx_val (y i) hy
  unfold thetaSpec
  have hins : Finset.univ.filter (fun j : Fin k => (j : ℕ) ≤ ((y i) : ℕ))
      = insert (y i)
          (Finset.univ.filter (fun j : Fin k => (j : ℕ) ≤ ((rollIdx k (y i)) : ℕ))) := by
    ext j
    simp only [Finset.mem_filter, Finset.mem_insert, Finset.mem_univ, true_and, hvr,
      Fin.ext_iff]
    omega
  rw [hins, Finset.sum_insert]
  · ring
  · simp only [Finset.mem_filter, Finset.mem_univ, true_and, hvr]
    omega

theorem dden_pos (X : Fin n → Fin d → ℝ) (y : Fin n → Fin k)
    (x0 : Fin d ⊕ Fin k → ℝ) (i : Fin n)
    (hz : ∀ j : Fin k, 0 < (j : ℕ) → (1e-6 : ℝ) < zOf x0 j) :
    0 < dden X y x0 i := by
  unfold dden
  by_cases hy : (y i : ℕ) = 0
  · rw [show phibVal X y x0 i = 0 from by simp [phibVal, hy], sub_zero]
    exact phi_pos _
  · rw [show phibVal X y x0 i = phi (bVal X y x0 i) from by simp [phibVal, hy]]
    have h1 := aVal_sub_bVal X y x0 i (Nat.pos_of_ne_zero hy)
    have h2 := hz (y i) (Nat.pos_of_ne_zero hy)
    have h0 : (0 : ℝ) < 1e-6 := by norm_num
    have h3 : bVal X y x0 i < aVal X y x0 i := by linarith
    have h4 := phi_lt_phi h3
    linarith

/-! ## Claim theorem: the objective formula -/

/-- C4: for every parameter point `x0 = (w, z)`, feature matrix `X` and
canonical label vector `y`, the objective `f_obj` equals the sum over samples
of `-log(phi(theta[y_i] - X_i.w) - phi(theta_prev[y_i] - X_i.w))` where
`theta` is the prefix sum of `z`, `theta_prev` its cyclic shift by one, and
the `phi(b)` term is replaced by `0` for samples with `y_i = 0`, plus the
ridge term `0.5 * alpha * norm(w)^2` and the barrier term
`-sum(log(max(z[1:], 1e-6)))`. -/
theorem f_obj_eq_spec (X : Fin n → Fin d → ℝ) (y : Fin n → Fin k)
    (x0 : Fin d ⊕ Fin k → ℝ) :
    f_obj X y x0 = f_obj_spec X y x0 := by
  unfold f_obj f_obj_spec
  congr 1
  congr 1
  · apply Finset.sum_congr rfl
    intro i _
    unfold aVal phibVal bVal
    rw [mulVec_L_inv, roll_mulVec_L_inv]
  · congr 1
    apply Finset.sum_congr rfl
    intro j _
    rw [sq]

/-! ## Claim theorem: the gradient -/

/-- C3: at every parameter point `x0 = (w, z)` whose entries `z[1:]` are
strictly greater than the floor `1e-6`, `f_grad` returns exactly the analytic
gradient of `f_obj`: along every coordinate `p` of the joint parameter vector,
the map `t ↦ f_obj (update x0 p t)` is differentiable at `x0 p` with
derivative `f_grad x0 p` (the `w`-block being
`X^T.((phi_a(1-phi_a) - phi_b(1-phi_b))/(phi_a-phi_b)) + alpha*w` and the
`z`-block the scatter of the `a`-side and `b`-side terms through `L_inv` and
its row-rolled variant minus the barrier gradient `1/z[1:]`). -/
theorem f_grad_is_gradient (X : Fin n → Fin d → ℝ) (y : Fin n → Fin k)
    (x0 : Fin d ⊕ Fin k → ℝ)
    (hz : ∀ j : Fin k, 0 < (j : ℕ) → (1e-6 : ℝ) < zOf x0 j)
    (p : Fin d ⊕ Fin k) :
    HasDerivAt (fun t => f_obj X y (Function.update x0 p t))
      (f_grad X y x0 p) (x0 p) := by
  have hupd : Function.update x0 p (x0 p) = x0 := Function.update_eq_self p x0
  have hA : ∀ i, HasDerivAt (fun t => aVal X y (Function.update x0 p t) i)
      (affCoef X i (y i) p) (x0 p) := by
    intro i
    have hfun : (fun t => aVal X y (Function.update x0 p t) i)
        = fun t => ∑ q, affCoef X i (y i) q * Function.update x0 p t q := by
      funext t
      exact aff_linear X i (y i) (Function.update x0 p t)
    rw [hfun]
    exact hasDerivAt_coord_sum _ _ _
  have hB : ∀ i, HasDerivAt (fun t => bVal X y (Function.update x0 p t) i)
      (affCoef X i (rollIdx k (y i)) p) (x0 p) := by
    intro i
    have hfun : (fun t => bVal X y (Function.update x0 p t) i)
        = fun t => ∑ q, affCoef X i (rollIdx k (y i)) q * Function.update x0 p t q := by
      funext t
      exact aff_linear X i (rollIdx k (y i)) (Function.update x0 p t)
    rw [hfun]
    exact hasDerivAt_coord_sum _ _ _
  have hG : ∀ i, HasDerivAt
      (fun t => -Real.log (phi (aVal X y (Function.update x0 p t) i)
        - phibVal X y (Function.update x0 p t) i))
      (-((dA X y x0 i * affCoef X i (y i) p
          - dB X y x0 i * affCoef X i (rollIdx k (y i)) p) / dden X y x0 i))
      (x0 p) := by
    intro i
    by_cases hy : (y i : ℕ) = 0
    · have hmask : ∀ x : Fin d ⊕ Fin k → ℝ, phibVal X y x i = 0 := by
        intro x
        simp [phibVal, hy]
      have hPA : HasDerivAt (fun t => phi (aVal X y (Function.update x0 p t) i))
          (phi (aVal X y (Function.update x0 p (x0 p)) i)
            * (1 - phi (aVal X y (Function.update x0 p (x0 p)) i))
            * affCoef X i (y i) p) (x0 p) :=
        (hasDerivAt_phi (aVal X y (Function.update x0 p (x0 p)) i)).comp (x0 p) (hA i)
      have hpos : phi (aVal X y (Function.update x0 p (x0 p)) i) ≠ 0 := by
        rw [hupd]
        exact ne_of_gt (phi_pos _)
      have h2 := (hPA.log hpos).neg
      rw [hupd] at h2
      have hfun : (fun t => -Real.log (phi (aVal X y (Function.update x0 p t) i)
            - phibVal X y (Function.update x0 p t) i))
          = fun t => -Real.log (phi (aVal X y (Function.update x0 p t) i)) := by
        funext t
        rw [hmask, sub_zero]
      rw [hfun]
      convert h2 using 1
      simp only [dA, dB, dden, hmask]
      ring
    · have hmaskx : ∀ x : Fin d ⊕ Fin k → ℝ, phibVal X y x i = phi (bVal X y x i) := by
        intro x
        simp [phibVal, hy]
      have hd := dden_pos X y x0 i hz
      have hPA : HasDerivAt (fun t => phi (aVal X y (Function.update x0 p t) i))
          (phi (aVal X y (Function.update x0 p (x0 p)) i)
            * (1 - phi (aVal X y (Function.update x0 p (x0 p)) i))
            * affCoef X i (y i) p) (x0 p) :=
        (hasDerivAt_phi (aVal X y (Function.update x0 p (x0 p)) i)).comp (x0 p) (hA i)
      have hPB : HasDerivAt (fun t => phi (bVal X y (Function.update x0 p t) i))
          (phi (bVal X y (Function.update x0 p (x0 p)) i)
            * (1 - phi (bVal X y (Function.update x0 p (x0 p)) i))
            * affCoef X i (rollIdx k (y i)) p) (x0 p) :=
        (hasDerivAt_phi (bVal X y (Function.update x0 p (x0 p)) i)).comp (x0 p) (hB i)
      have hsub := hPA.sub hPB
      have hne : phi (aVal X y (Function.update x0 p (x0 p)) i)
          - phi (bVal X y (Function.update x0 p (x0 p)) i) ≠ 0 := by
        rw [hupd]
        have hd2 := hd
        rw [dden, hmaskx] at hd2
        exact ne_of_gt hd2
      have h2 := (hsub.log hne).neg
      rw [hupd] at h2
      have hfun : (fun t => -Real.log (phi (aVal X y (Function.update x0 p t) i)
            - phibVal X y (Function.update x0 p t) i))
          = fun t => -Real.log (phi (aVal X y (Function.update x0 p t) i)
            - phi (bVal X y (Function.update x0 p t) i)) := by
        funext t
        rw [hmaskx]
      rw [hfun]
      convert h2 using 1
      simp only [dA, dB, dden, hmaskx]
  have hSum : HasDerivAt
      (fun t => ∑ i, -Real.log (phi (aVal X y (Function.update x0 p t) i)
        - phibVal X y (Function.update x0 p t) i))
      (∑ i, -((dA X y x0 i * affCoef X i (y i) p
          - dB X y x0 i * affCoef X i (rollIdx k (y i)) p) / dden X y x0 i))
      (x0 p) :=
    HasDerivAt.sum (fun i _ => hG i)
  have hRidge : HasDerivAt
      (fun t => 0.5 * alpha * ∑ j, wOf (Function.update x0 p t) j
        * wOf (Function.update x0 p t) j) 0 (x0 p) := by
    have hfun : (fun t => 0.5 * alpha * ∑ j, wOf (Function.update x0 p t) j
          * wOf (Function.update x0 p t) j) = fun _ : ℝ => (0 : ℝ) := by
      funext t
      simp [alpha]
    rw [hfun]
    exact hasDerivAt_const _ _
  obtain jp | jp := p
  · have hBar : HasDerivAt
        (fun t => ∑ j ∈ barrierSet k,
          Real.log (max (zOf (Function.update x0 (Sum.inl jp) t) j) 1e-6))
        0 (x0 (Sum.inl jp)) := by
      have hfun : (fun t => ∑ j ∈ barrierSet k,
            Real.log (max (zOf (Function.update x0 (Sum.inl jp) t) j) 1e-6))
          = fun _ : ℝ => ∑ j ∈ barrierSet k, Real.log (max (zOf x0 j) 1e-6) := by
        funext t
        apply Finset.sum_congr rfl
        intro j _
        unfold zOf
        rw [Function.update_noteq (by simp)]
      rw [hfun]
      exact hasDerivAt_const _ _
    have htot := (hSum.add hRidge).sub hBar
    have hslope : f_grad X y x0 (Sum.inl jp)
        = (∑ i, -((dA X y x0 i * affCoef X i (y i) (Sum.inl jp)
            - dB X y x0 i * affCoef X i (rollIdx k (y i)) (Sum.inl jp))
              / dden X y x0 i)) + 0 - 0 := by
      simp only [f_grad, alpha, zero_mul, add_zero, sub_zero]
      apply Finset.sum_congr rfl
      intro i _
      simp only [affCoef, Sum.elim_inl]
      ring
    rw [hslope]
    exact htot
  · have hsum_eq : (∑ i, -((dA X y x0 i * affCoef X i (y i) (Sum.inr jp)
          - dB X y x0 i * affCoef X i (rollIdx k (y i)) (Sum.inr jp))
            / dden X y x0 i))
        = -(∑ i, L_inv k (y i) jp * (dA X y x0 i / dden X y x0 i))
          + (∑ i ∈ Finset.univ.filter (fun i => 0 < (y i : ℕ)),
              L1_inv k (y i) jp * (dB X y x0 i / dden X y x0 i)) := by
      have h1 : ∀ i, -((dA X y x0 i * affCoef X i (y i) (Sum.inr jp)
            - dB X y x0 i * affCoef X i (rollIdx k (y i)) (Sum.inr jp))
              / dden X y x0 i)
          = -(L_inv k (y i) jp * (dA X y x0 i / dden X y x0 i))
            + L1_inv k (y i) jp * (dB X y x0 i / dden X y x0 i) := by
        intro i
        simp only [affCoef, Sum.elim_inr, L_inv, L1_inv, Matrix.of_apply]
        ring
      rw [Finset.sum_congr rfl (fun i _ => h1 i), Finset.sum_add_distrib,
        Finset.sum_neg_distrib]
      congr 1
      refine (Finset.sum_subset (Finset.filter_subset _ _) ?_).symm
      intro i _ hi
      simp only [Finset.mem_filter, Finset.mem_univ, true_and, not_lt,
        Nat.le_zero] at hi
      simp [dB, phibVal, hi]
    by_cases hjp : 0 < (jp : ℕ)
    · have hmem : jp ∈ barrierSet k := by simp [barrierSet, hjp]
      have hBar : HasDerivAt
          (fun t => ∑ j ∈ barrierSet k,
            Real.log (max (zOf (Function.update x0 (Sum.inr jp) t) j) 1e-6))
          (x0 (Sum.inr jp))⁻¹ (x0 (Sum.inr jp)) := by
        have hfun : (fun t => ∑ j ∈ barrierSet k,
              Real.log (max (zOf (Function.update x0 (Sum.inr jp) t) j) 1e-6))
            = fun t : ℝ => Real.log (max t 1e-6)
                + ∑ j ∈ (barrierSet k).erase jp,
                    Real.log (max (zOf x0 j) 1e-6) := by
          funext t
          rw [← Finset.add_sum_erase _ _ hmem]
          congr 1
          · unfold zOf
            rw [Function.update_same]
          · apply Finset.sum_congr rfl
            intro j hj
            unfold zOf
            have hne := Finset.ne_of_mem_erase hj
            rw [Function.update_noteq (by simp [hne])]
        rw [hfun]
        exact (hasDerivAt_log_max (x0 (Sum.inr jp)) (hz jp hjp)).add_const _
      have htot := (hSum.add hRidge).sub hBar
      have hslope : f_grad X y x0 (Sum.inr jp)
          = (∑ i, -((dA X y x0 i * affCoef X i (y i) (Sum.inr jp)
              - dB X y x0 i * affCoef X i (rollIdx k (y i)) (Sum.inr jp))
                / dden X y x0 i)) + 0 - (x0 (Sum.inr jp))⁻¹ := by
        simp only [f_grad, hsum_eq, add_zero]
        congr 1
        rw [if_pos hjp, max_eq_left (le_of_lt (hz jp hjp)), one_div]
        rfl
      rw [hslope]
      exact htot
    · have hBar : HasDerivAt
          (fun t => ∑ j ∈ barrierSet k,
            Real.log (max (zOf (Function.update x0 (Sum.inr jp) t) j) 1e-6))
          0 (x0 (Sum.inr jp)) := by
        have hfun : (fun t => ∑ j ∈ barrierSet k,
              Real.log (max (zOf (Function.update x0 (Sum.inr jp) t) j) 1e-6))
            = fun _ : ℝ => ∑ j ∈ barrierSet k, Real.log (max (zOf x0 j) 1e-6) := by
          funext t
          apply Finset.sum_congr rfl
          intro j hj
          simp only [barrierSet, Finset.mem_filter, Finset.mem_univ, true_and] at hj
          have hne : j ≠ jp := by
            intro hcon
            rw [hcon] at hj
            exact hjp hj
          unfold zOf
          rw [Function.update_noteq (by simp [hne])]
        rw [hfun]
        exact hasDerivAt_const _ _
      have htot := (hSum.add hRidge).sub hBar
      have hslope : f_grad X y x0 (Sum.inr jp)
          = (∑ i, -((dA X y x0 i * affCoef X i (y i) (Sum.inr jp)
              - dB X y x0 i * affCoef X i (rollIdx k (y i)) (Sum.inr jp))
                / dden X y x0 i)) + 0 - 0 := by
        simp only [f_grad, hsum_eq, add_zero]
        congr 1
        rw [if_neg hjp]
      rw [hslope]
      exact htot

/-- Witness for C3 at a concrete input: `n = 1`, `d = 1`, `k = 2`,
`X = [[1]]`, `y = [0]`, `w = [0]`, `z = [-1/2, 1]` (so `z[1] = 1 > 1e-6`),
coordinate `p = inr 1` (the constrained `z[1]` direction). -/
theorem f_grad_is_gradient_witness :
    (∀ j : Fin 2, 0 < (j : ℕ) →
        (1e-6 : ℝ) < zOf (Sum.elim (![0] : Fin 1 → ℝ) ![-1/2, 1]) j)
    ∧ HasDerivAt
        (fun t => f_obj ![![1]] ![(0 : Fin 2)]
          (Function.update (Sum.elim (![0] : Fin 1 → ℝ) ![-1/2, 1]) (Sum.inr 1) t))
        (f_grad ![![1]] ![(0 : Fin 2)]
          (Sum.elim (![0] : Fin 1 → ℝ) ![-1/2, 1]) (Sum.inr 1))
        (Sum.elim (![0] : Fin 1 → ℝ) ![-1/2, 1] (Sum.inr 1)) := by
  have hz : ∀ j : Fin 2, 0 < (j : ℕ) →
      (1e-6 : ℝ) < zOf (Sum.elim (![0] : Fin 1 → ℝ) ![-1/2, 1]) j := by
    intro j hj
    fin_cases j
    · simp at hj
    · show (1e-6 : ℝ) < 1
      norm_num
  exact ⟨hz, f_grad_is_gradient ![![1]] ![(0 : Fin 2)]
    (Sum.elim (![0] : Fin 1 → ℝ) ![-1/2, 1]) hz (Sum.inr 1)⟩

end Minirank
